import Mathlib

/-!
Verification development for the donggua-proxy gateway.

The Go sources are shallowly embedded: pure helpers become Lean functions,
the DNS cache and the rate-limiter registry become explicit state passed
through each operation, and standard-library effects (DNS resolution, TCP
connection attempts, URL parsing, address parsing) become oracle functions
supplied as parameters, so every definition stays executable. Go strings are
modelled as `List Char` (written `Str`), which the kernel can evaluate.
-/

namespace Donggua

/-- Go strings, modelled as character lists so that every operation on them
is computable by the kernel. -/
abbrev Str := List Char

/-- Go `net.IP`, normalised: a dotted-quad parses to `v4`, anything else to
`v6` with its sixteen bytes. -/
inductive IP where
  | v4 (a b c d : Nat)
  | v6 (bytes : List Nat)
  deriving DecidableEq, Repr

/-- The sixteen bytes of the IPv6 loopback address `::1`. -/
def v6Loopback : List Nat := [0, 0, 0, 0, 0, 0, 0, 0, 0, 0, 0, 0, 0, 0, 0, 1]

/-- The sixteen bytes of the IPv6 unspecified address `::`. -/
def v6Zero : List Nat := [0, 0, 0, 0, 0, 0, 0, 0, 0, 0, 0, 0, 0, 0, 0, 0]

/-- Go `net.IP.IsLoopback`: first v4 byte 127, or the v6 loopback. -/
def IP.isLoopback : IP → Bool
  | .v4 a _ _ _ => a == 127
  | .v6 bs => bs == v6Loopback

/-- Go `net.IP.IsPrivate`: 10/8, 172.16/12, 192.168/16, or fc00::/7. -/
def IP.isPrivate : IP → Bool
  | .v4 a b _ _ => a == 10 || (a == 172 && (b &&& 0xf0) == 16) || (a == 192 && b == 168)
  | .v6 bs => bs.length == 16 && ((bs.headD 0) &&& 0xfe) == 0xfc

/-- Go `net.IP.IsUnspecified`: all-zero address. -/
def IP.isUnspecified : IP → Bool
  | .v4 a b c d => a == 0 && b == 0 && c == 0 && d == 0
  | .v6 bs => bs == v6Zero

/-- Go `net.IP.IsLinkLocalUnicast`: 169.254/16 or fe80::/10. -/
def IP.isLinkLocalUnicast : IP → Bool
  | .v4 a b _ _ => a == 169 && b == 254
  | .v6 bs => bs.headD 0 == 0xfe && ((bs.getD 1 0) &&& 0xc0) == 0x80

/-- Go `net.IP.IsLinkLocalMulticast`: 224.0.0/24 or ff02::/16. -/
def IP.isLinkLocalMulticast : IP → Bool
  | .v4 a b c _ => a == 224 && b == 0 && c == 0
  | .v6 bs => bs.headD 0 == 0xff && ((bs.getD 1 0) &&& 0x0f) == 0x02

/-- `utils.IsPrivateIP`: loopback, private, unspecified, or link-local
(unicast or multicast). -/
def IsPrivateIP (ip : IP) : Bool :=
  ip.isLoopback || ip.isPrivate || ip.isUnspecified ||
    ip.isLinkLocalUnicast || ip.isLinkLocalMulticast

/-- One entry of the DNS cache (`dnsCacheEntry`): resolved addresses and the
expiry instant, in seconds. -/
structure DnsCacheEntry where
  ips : List IP
  expiry : Nat
  deriving DecidableEq, Repr

/-- The `dnsCache` map, as an association list keyed by hostname. -/
abbrev DnsCache := List (Str × DnsCacheEntry)

/-- Association-list lookup (first binding wins, as in a Go map). -/
def alFind {κ α : Type} [BEq κ] : List (κ × α) → κ → Option α
  | [], _ => none
  | (k, v) :: t, key => if k == key then some v else alFind t key

/-- Association-list deletion of every binding of a key. -/
def alErase {κ α : Type} [BEq κ] : List (κ × α) → κ → List (κ × α)
  | [], _ => []
  | (k, v) :: t, key => if k == key then alErase t key else (k, v) :: alErase t key

/-- Association-list store: replace any existing binding of the key. -/
def alStore {κ α : Type} [BEq κ] (l : List (κ × α)) (key : κ) (v : α) :
    List (κ × α) :=
  (key, v) :: alErase l key

/-- Lookup in the DNS cache (`dnsCache.Load`). -/
def cacheFind (c : DnsCache) (host : Str) : Option DnsCacheEntry :=
  alFind c host

/-- Deletion from the DNS cache (`dnsCache.Delete`). -/
def cacheErase (c : DnsCache) (host : Str) : DnsCache :=
  alErase c host

/-- Store into the DNS cache (`dnsCache.Store`). -/
def cacheStore (c : DnsCache) (host : Str) (e : DnsCacheEntry) : DnsCache :=
  alStore c host e

/-- A cache is safe when no stored address set contains a private address. -/
def CacheSafe (c : DnsCache) : Prop :=
  ∀ h e, cacheFind c h = some e → ∀ ip ∈ e.ips, IsPrivateIP ip = false

/-- Oracles for the standard-library effects used by `lookupIPSafe`:
`net.ParseIP` and `net.LookupIP` (`none` models a resolution error). -/
structure ResolveEnv where
  parseIP : Str → Option IP
  resolve : Str → Option (List IP)

/-- Outcome of `lookupIPSafe`. -/
inductive LookupResult where
  | ok (ips : List IP)
  | ssrfError
  | dnsError
  deriving DecidableEq, Repr

/-- Result state of one lookup: the outcome and the cache afterwards. -/
structure LookupOut where
  res : LookupResult
  cache : DnsCache
  deriving DecidableEq

/-- Steps 2-4 of `lookupIPSafe` after a cache miss: resolve, reject the whole
host if any resolved address is private, otherwise cache for 300 seconds. -/
def resolveFresh (env : ResolveEnv) (now : Nat) (host : Str) (cache : DnsCache) :
    LookupOut :=
  match env.resolve host with
  | none => ⟨.dnsError, cache⟩
  | some ips =>
    if ips.any (fun ip => IsPrivateIP ip) then ⟨.ssrfError, cache⟩
    else ⟨.ok ips, cacheStore cache host ⟨ips, now + 300⟩⟩

/-- `utils.lookupIPSafe`: literal IPs are checked directly; otherwise a live
cache entry is served, an expired one is deleted before re-resolving. -/
def lookupIPSafe (env : ResolveEnv) (now : Nat) (host : Str) (cache : DnsCache) :
    LookupOut :=
  match env.parseIP host with
  | some ip => if IsPrivateIP ip then ⟨.ssrfError, cache⟩ else ⟨.ok [ip], cache⟩
  | none =>
    match cacheFind cache host with
    | some e =>
      if now < e.expiry then ⟨.ok e.ips, cache⟩
      else resolveFresh env now host (cacheErase cache host)
    | none => resolveFresh env now host cache

/-- Oracles for `SafeDialContext`: `net.SplitHostPort` and the success of a
TCP connection attempt to a given address and port. -/
structure DialEnv extends ResolveEnv where
  splitHostPort : Str → Option (Str × Str)
  dialOk : IP → Str → Bool

/-- Outcome of `SafeDialContext`. -/
inductive DialOutcome where
  | conn (ip : IP)
  | errSplit
  | errSSRF
  | errDNS
  | errConn
  | errNoAddr
  deriving DecidableEq, Repr

/-- Result of one dial: outcome, the addresses actually given a TCP connection
attempt, in order, and the cache afterwards. -/
structure DialResult where
  outcome : DialOutcome
  attempts : List IP
  cache : DnsCache
  deriving DecidableEq

/-- The connect loop of `SafeDialContext`: try each address in order, first
success wins; record every attempted address. -/
def dialAttempts (env : DialEnv) (port : Str) : List IP → Option IP × List IP
  | [] => (none, [])
  | ip :: rest =>
    if env.dialOk ip port then (some ip, [ip])
    else
      let r := dialAttempts env port rest
      (r.1, ip :: r.2)

/-- `utils.SafeDialContext`: split host and port, resolve through
`lookupIPSafe`, then attempt the resolved addresses in order. -/
def SafeDialContext (env : DialEnv) (now : Nat) (addr : Str) (cache : DnsCache) :
    DialResult :=
  match env.splitHostPort addr with
  | none => ⟨.errSplit, [], cache⟩
  | some (host, port) =>
    match lookupIPSafe env.toResolveEnv now host cache with
    | ⟨.ssrfError, c⟩ => ⟨.errSSRF, [], c⟩
    | ⟨.dnsError, c⟩ => ⟨.errDNS, [], c⟩
    | ⟨.ok ips, c⟩ =>
      match dialAttempts env port ips with
      | (some ip, as) => ⟨.conn ip, as, c⟩
      | (none, as) => if as.isEmpty then ⟨.errNoAddr, [], c⟩ else ⟨.errConn, as, c⟩

/-- Go's `unicode.IsSpace` restricted to the ASCII space characters, as used
by `strings.TrimSpace`. -/
def isGoSpace (c : Char) : Bool :=
  c == ' ' || c == '\t' || c == '\n' || c == '\x0b' || c == '\x0c' || c == '\r'

/-- `strings.TrimSpace`: drop whitespace from both ends. -/
def trimGo (s : Str) : Str :=
  ((s.dropWhile isGoSpace).reverse.dropWhile isGoSpace).reverse

/-- Go `*url.URL`, restricted to the parts the proxy inspects: scheme, host,
optional userinfo, and an opaque remainder (path, query, fragment). -/
structure GoURL where
  scheme : Str
  host : Str
  user : Option Str
  rest : Str
  deriving DecidableEq, Repr

/-- `strings.ToLower` for the ASCII schemes compared here. -/
def toLowerStr (s : Str) : Str := s.map Char.toLower

/-- `utils.ValidateTargetURL`: non-nil URL, scheme http or https after
lowering, non-empty host, no userinfo. `true` means valid (nil error). -/
def ValidateTargetURL : Option GoURL → Bool
  | none => false
  | some u =>
    let s := toLowerStr u.scheme
    (s == ("http".toList) || s == ("https".toList)) && u.host != [] && u.user == none

/-- `utils.ResolveURL`: references starting with "http" pass through, "//"
gets the base scheme, "/" gets scheme and host, anything else is relative to
the base directory. -/
def ResolveURL (u : Str) (baseURL : GoURL) (basePath : Str) : Str :=
  if ("http".toList).isPrefixOf u then u
  else if ("//".toList).isPrefixOf u then baseURL.scheme ++ (":".toList) ++ u
  else if ("/".toList).isPrefixOf u then
    baseURL.scheme ++ ("://".toList) ++ baseURL.host ++ u
  else baseURL.scheme ++ ("://".toList) ++ baseURL.host ++ basePath ++ u

/-- Oracles for the `net/url` effects of the proxy handler: `url.Parse`,
`URL.ResolveReference`, `URL.String` and `url.QueryEscape`. -/
structure URLEnv where
  parse : Str → Option GoURL
  resolveRef : GoURL → GoURL → GoURL
  urlString : GoURL → Str
  queryEscape : Str → Str

/-- The 3xx `Location` rewrite of `ProxyHandler` (proxy.go lines 101-111):
`some s` is the value written over the copied header, `none` leaves the
header as copied from the origin. -/
def rewriteLocation (env : URLEnv) (status : Nat) (locHeader : Str)
    (target : GoURL) (proxyOrigin : Str) : Option Str :=
  if 300 ≤ status ∧ status < 400 then
    let loc := trimGo locHeader
    if loc ≠ [] then
      match env.parse loc with
      | some locURL =>
        let resolved := env.resolveRef target locURL
        if ValidateTargetURL (some resolved) then
          some (proxyOrigin ++ ("/?url=".toList) ++ env.queryEscape (env.urlString resolved))
        else none
      | none => none
    else none
  else none

/-- The state of one `rate.Limiter` from golang.org/x/time/rate: available
tokens and the instant of the last successful update, with exact rational
arithmetic in place of float64 (exact on the whole-token, whole-second
scenarios stated below). -/
structure LimState where
  tokens : ℚ
  last : ℚ
  deriving DecidableEq

/-- `rate.NewLimiter(r, b)`: a fresh limiter holds its full burst (the zero
`last` time makes the first advance fill the bucket to the cap). -/
def newLimiter (b : ℚ) : LimState := ⟨b, 0⟩

/-- `Limiter.advance`: refill at the steady rate since `last`, capped at the
burst. -/
def advanceTokens (r b : ℚ) (s : LimState) (now : ℚ) : ℚ :=
  let t := s.tokens + (now - s.last) * r
  if b < t then b else t

/-- `Limiter.Allow` (i.e. `reserveN(now, 1, 0)`): admit when one token is
available after the refill; a rejected check leaves the limiter unchanged. -/
def limiterAllow (r b : ℚ) (now : ℚ) (s : LimState) : Bool × LimState :=
  let tokens := advanceTokens r b s now
  if 1 ≤ b ∧ 0 ≤ tokens - 1 then (true, ⟨tokens - 1, now⟩) else (false, s)

/-- Run `n` admission checks at one instant, counting how many are admitted. -/
def runAllowN (r b : ℚ) (now : ℚ) : Nat → LimState → Nat × LimState
  | 0, s => (0, s)
  | n + 1, s =>
    let first := limiterAllow r b now s
    let rest := runAllowN r b now n first.2
    ((if first.1 then 1 else 0) + rest.1, rest.2)

/-- Go `net.IPNet`: a base address and the number of leading mask bits. -/
structure IPNet where
  base : IP
  maskBits : Nat
  deriving DecidableEq, Repr

/-- The bytes of an address (4 for v4, 16 for v6). -/
def ipBytes : IP → List Nat
  | .v4 a b c d => [a, b, c, d]
  | .v6 bs => bs

/-- Keep the top `min bits 8` bits of one byte. -/
def maskedBy (b bits : Nat) : Nat :=
  b / 2 ^ (8 - min bits 8) * 2 ^ (8 - min bits 8)

/-- Byte-wise masked comparison underlying `IPNet.Contains`. -/
def bytesMatch : List Nat → List Nat → Nat → Bool
  | [], [], _ => true
  | nb :: ns, ib :: ibs, bits =>
    maskedBy nb bits == maskedBy ib bits && bytesMatch ns ibs (bits - 8)
  | _, _, _ => false

/-- Go `IPNet.Contains` on normalised addresses: same family and the first
`maskBits` bits agree. -/
def ipnetContains (n : IPNet) (ip : IP) : Bool :=
  bytesMatch (ipBytes n.base) (ipBytes ip) n.maskBits

/-- The fallback trusted networks 127.0.0.1/8 and ::1/128, as
`net.ParseCIDR` produces them (base address masked). -/
def defaultLoopbackNets : List IPNet := [⟨.v4 127 0 0 0, 8⟩, ⟨.v6 v6Loopback, 128⟩]

/-- Oracle for `net.ParseCIDR` (`none` models a parse error). -/
structure CidrEnv where
  parseCIDR : Str → Option IPNet

/-- `strings.Split` on a comma. -/
def splitComma : Str → List Str
  | [] => [[]]
  | c :: t =>
    if c == ',' then [] :: splitComma t
    else
      match splitComma t with
      | [] => [[c]]
      | p :: ps => (c :: p) :: ps

/-- The CIDR-list parsing loop of `EnableTrustedProxies`: split on commas,
trim, skip empty and invalid entries. -/
def parseTrustedNets (env : CidrEnv) (cidrs : Str) : List IPNet :=
  (splitComma cidrs).filterMap (fun part =>
    let p := trimGo part
    if p = [] then none else env.parseCIDR p)

/-- The client IP keying state and per-key limiter registry
(`middleware.IPRateLimiter`): both maps, the configured rate and burst, and
the proxy-trust configuration. -/
structure RateLimiterState where
  ips : List (Str × LimState)
  lastSeen : List (Str × ℚ)
  r : ℚ
  b : ℚ
  trustProxy : Bool
  trustedNets : List IPNet
  deriving DecidableEq

/-- `NewIPRateLimiter`: empty maps, stored rate and burst. -/
def initRegistry (r b : ℚ) : RateLimiterState :=
  ⟨[], [], r, b, false, []⟩

/-- `IPRateLimiter.EnableTrustedProxies`: record the flag; with trust on,
parse the CIDR list and fall back to the loopback ranges when nothing valid
was configured. -/
def EnableTrustedProxies (env : CidrEnv) (tp : Bool) (cidrs : Str)
    (st : RateLimiterState) : RateLimiterState :=
  if !tp then { st with trustProxy := false, trustedNets := [] }
  else
    let nets := parseTrustedNets env cidrs
    { st with trustProxy := true,
              trustedNets := if nets.isEmpty then defaultLoopbackNets else nets }

/-- `IPRateLimiter.AddIP`: create the limiter if absent, stamp last-seen. -/
def AddIP (now : ℚ) (key : Str) (st : RateLimiterState) :
    LimState × RateLimiterState :=
  match alFind st.ips key with
  | some lim => (lim, { st with lastSeen := alStore st.lastSeen key now })
  | none =>
    let lim := newLimiter st.b
    (lim, { st with ips := alStore st.ips key lim,
                    lastSeen := alStore st.lastSeen key now })

/-- `IPRateLimiter.GetLimiter`: on a miss defer to `AddIP`, otherwise stamp
last-seen and return the stored limiter. -/
def GetLimiter (now : ℚ) (key : Str) (st : RateLimiterState) :
    LimState × RateLimiterState :=
  match alFind st.ips key with
  | none => AddIP now key st
  | some lim => (lim, { st with lastSeen := alStore st.lastSeen key now })

/-- The keys the cleanup sweep evicts: idle longer than 180 seconds. -/
def staleKeys (now : ℚ) (lastSeen : List (Str × ℚ)) : List Str :=
  (lastSeen.filter (fun p => decide (now - p.2 > 180))).map (fun p => p.1)

/-- One iteration of `cleanupLoop`: delete every stale key from both maps. -/
def cleanupSweep (now : ℚ) (st : RateLimiterState) : RateLimiterState :=
  let stale := staleKeys now st.lastSeen
  { st with ips := st.ips.filter (fun p => !(stale.contains p.1)),
            lastSeen := st.lastSeen.filter (fun p => !(stale.contains p.1)) }

/-- The registry operations whose interleavings claim the map invariant. -/
inductive RegOp where
  | add (now : ℚ) (key : Str)
  | get (now : ℚ) (key : Str)
  | sweep (now : ℚ)

/-- Apply one registry operation to the state. -/
def applyRegOp (st : RateLimiterState) : RegOp → RateLimiterState
  | .add now k => (AddIP now k st).2
  | .get now k => (GetLimiter now k st).2
  | .sweep now => cleanupSweep now st

/-- Run a sequence of registry operations. -/
def runRegOps (st : RateLimiterState) (ops : List RegOp) : RateLimiterState :=
  ops.foldl applyRegOp st

/-- An inbound request, reduced to the fields the gate and origin helpers
read; absent headers are the empty string, as `Header.Get` reports them. -/
structure HttpRequest where
  remoteAddr : Str
  xForwardedFor : Str
  xRealIP : Str
  xForwardedProto : Str
  host : Str
  tls : Bool
  deriving DecidableEq

/-- Oracles for the `net` effects of the middleware: `net.SplitHostPort`,
`net.ParseIP`, and `IP.String`. -/
structure MwEnv where
  splitHostPort : Str → Option (Str × Str)
  parseIP : Str → Option IP
  ipString : IP → Str

/-- `IPRateLimiter.isTrustedProxy`: a parsed peer address inside one of the
configured trusted networks, with trust enabled. -/
def isTrustedProxy (st : RateLimiterState) (remoteIP : Option IP) : Bool :=
  match remoteIP with
  | none => false
  | some ip =>
    if !st.trustProxy || st.trustedNets.isEmpty then false
    else st.trustedNets.any (fun n => ipnetContains n ip)

/-- `strings.Split(s, ",")[0]`: the text before the first comma. -/
def firstCommaField (s : Str) : Str := s.takeWhile (fun c => c != ',')

/-- `extractClientIP`: the left-most forwarded-for entry when it parses,
else a valid real-IP header, else the fallback peer address. -/
def extractClientIP (env : MwEnv) (req : HttpRequest) (fallback : Str) : Str :=
  let fromXff :=
    if req.xForwardedFor ≠ [] then
      match env.parseIP (trimGo (firstCommaField req.xForwardedFor)) with
      | some ip => some (env.ipString ip)
      | none => none
    else none
  match fromXff with
  | some s => s
  | none =>
    let xrip := trimGo req.xRealIP
    if xrip ≠ [] then
      match env.parseIP xrip with
      | some ip => env.ipString ip
      | none => fallback
    else fallback

/-- The peer address of `LimitMiddleware`: the host part of `RemoteAddr`, or
the whole string when `SplitHostPort` fails. -/
def peerIPStr (env : MwEnv) (req : HttpRequest) : Str :=
  match env.splitHostPort req.remoteAddr with
  | some hp => hp.1
  | none => req.remoteAddr

/-- The rate-limiting key chosen by `LimitMiddleware`: the forwarded
identity only behind a trusted proxy, else the peer itself. -/
def limiterKey (env : MwEnv) (st : RateLimiterState) (req : HttpRequest) : Str :=
  let ipStr := peerIPStr env req
  if isTrustedProxy st (env.parseIP (trimGo ipStr)) then extractClientIP env req ipStr
  else ipStr

/-- A gated response: either the 429 rejection or the wrapped handler's
response. -/
inductive GateResponse (α : Type) where
  | tooManyRequests : GateResponse α
  | handled : α → GateResponse α
  deriving DecidableEq

/-- `IPRateLimiter.LimitMiddleware`: resolve the key, take one token, and
only on admission run the wrapped handler. The returned state reflects the
in-place mutation of the shared limiter. -/
def LimitMiddleware {α : Type} (env : MwEnv) (now : ℚ) (next : HttpRequest → α)
    (st : RateLimiterState) (req : HttpRequest) : GateResponse α × RateLimiterState :=
  let key := limiterKey env st req
  let got := GetLimiter now key st
  let checked := limiterAllow st.r st.b now got.1
  let st2 := { got.2 with ips := alStore got.2.ips key checked.2 }
  if checked.1 then (.handled (next req), st2) else (.tooManyRequests, st2)

/-- The admission decision of the gate for one request, in isolation. -/
def gateAdmitted (env : MwEnv) (now : ℚ) (st : RateLimiterState)
    (req : HttpRequest) : Bool :=
  (limiterAllow st.r st.b now (GetLimiter now (limiterKey env st req) st).1).1

/-- Modelled from the spec: the entry wiring of the current `main` is not
among the source files (the `main` present predates the middleware and never
references it); per the spec, the Request Gate wraps the whole route
multiplexer, admitting or rejecting every inbound request before any handler
runs, so the assembled server is `LimitMiddleware` around the mux. -/
def mainServer {α : Type} (env : MwEnv) (mux : HttpRequest → α) (now : ℚ)
    (st : RateLimiterState) (req : HttpRequest) : GateResponse α × RateLimiterState :=
  LimitMiddleware env now mux st req

/-- `utils.GetProxyOrigin` (the one-argument version in utils.go): scheme
from `X-Forwarded-Proto` whenever the header is set, else from TLS state;
host from the request. -/
def GetProxyOrigin (req : HttpRequest) : Str :=
  let scheme :=
    if req.xForwardedProto ≠ [] then req.xForwardedProto
    else if req.tls then ("https".toList) else ("http".toList)
  scheme ++ ("://".toList) ++ req.host

/-- The attribute marker the tag rewriter splits on. -/
def uriSep : Str := "URI=\"".toList

/-- `strings.Contains` for a non-empty separator. -/
def containsSub (sep : Str) : Str → Bool
  | [] => sep.isEmpty
  | c :: t => sep.isPrefixOf (c :: t) || containsSub sep t

/-- Locate the first occurrence of `uriSep`: the text before it and the text
after it, or `none` when the marker is absent. -/
def findSep : Str → Option (Str × Str)
  | [] => none
  | c :: t =>
    if uriSep.isPrefixOf (c :: t) then some ([], t.drop 4)
    else
      match findSep t with
      | none => none
      | some pp => some (c :: pp.1, pp.2)

/-- `strings.Split(line, uriSep)` with explicit fuel (each recursion removes
at least the five marker characters, so `s.length` fuel always suffices). -/
def splitOnUriGo : Nat → Str → List Str
  | 0, s => [s]
  | fuel + 1, s =>
    match findSep s with
    | none => [s]
    | some pp => pp.1 :: splitOnUriGo fuel pp.2

/-- `strings.Split(line, uriSep)`: non-overlapping, left-to-right. -/
def splitOnUri (s : Str) : List Str := splitOnUriGo s.length s

/-- Interleave the separator back between split parts; `joinUri` of
`splitOnUri` recovers the input. -/
def joinUri : List Str → Str
  | [] => []
  | [p] => p
  | p :: ps => p ++ uriSep ++ joinUri ps

/-- The loop body of `rewriteTagURIs` for one part following a `URI="`
marker: with a closing quote, rebuild the attribute around the proxied
absolute link; without one, reproduce the input segment untouched. -/
def processUriPart (escape : Str → Str) (base : GoURL) (proxyOrigin basePath : Str)
    (p : Str) : Str :=
  if p.contains '"' then
    let uri := p.takeWhile (fun c => c != '"')
    let afterQuote := (p.dropWhile (fun c => c != '"')).drop 1
    uriSep ++ proxyOrigin ++ ("/?url=".toList) ++
      escape (ResolveURL uri base basePath) ++ ("\"".toList) ++ afterQuote
  else uriSep ++ p

/-- `handlers.rewriteTagURIs`: split on `URI="` and rewrite each quoted
attribute value, leaving a line without the marker unchanged. -/
def rewriteTagURIs (escape : Str → Str) (base : GoURL) (proxyOrigin basePath : Str)
    (line : Str) : Str :=
  let parts := splitOnUri line
  if parts.length < 2 then line
  else parts.headD [] ++ (parts.tail.map (processUriPart escape base proxyOrigin basePath)).flatten

/-- The tag branch of `rewriteM3u8` for one line whose trimmed form starts
with '#': rewrite only when the trimmed line contains `URI="`. -/
def tagLineOut (escape : Str → Str) (base : GoURL) (proxyOrigin basePath : Str)
    (line : Str) : Str :=
  if containsSub uriSep (trimGo line) then rewriteTagURIs escape base proxyOrigin basePath line
  else line

/-! ### Concrete fixtures used by the witnesses -/

/-- A concrete resolution environment: no literal IPs parse, and the single
hostname "internal.test" resolves to the private address 10.0.0.1. -/
def resolveEnvW : ResolveEnv :=
  ⟨fun _ => none,
   fun s => if s = ("internal.test".toList) then some [.v4 10 0 0 1] else none⟩

/-- A concrete middleware environment: a host-port table for two peers, an
address table for their IPs, and the canonical printer for 9.9.9.9. -/
def mwEnvW : MwEnv :=
  ⟨fun a =>
    if a = ("127.0.0.1:5000".toList) then some (("127.0.0.1".toList), ("5000".toList))
    else if a = ("9.9.9.9:1234".toList) then some (("9.9.9.9".toList), ("1234".toList))
    else none,
   fun s =>
    if s = ("127.0.0.1".toList) then some (.v4 127 0 0 1)
    else if s = ("9.9.9.9".toList) then some (.v4 9 9 9 9)
    else none,
   fun ip => if ip = .v4 9 9 9 9 then ("9.9.9.9".toList) else ("?".toList)⟩

/-- A CIDR environment in which nothing parses, forcing the loopback
default. -/
def cidrEnvW : CidrEnv := ⟨fun _ => none⟩

/-- A request arriving from the loopback peer with a forwarded-for claim. -/
def reqTrustedW : HttpRequest :=
  ⟨("127.0.0.1:5000".toList), ("9.9.9.9".toList), [], [], ("h".toList), false⟩

/-- A bare request from a remote peer. -/
def reqGateW : HttpRequest :=
  ⟨("9.9.9.9:1234".toList), [], [], [], ("h".toList), false⟩

/-- A concrete URL environment over one address: parsing recognises
"http://e/x", reference resolution returns the reference, printing
reassembles the fields, and escaping is the identity. -/
def urlEnvW : URLEnv :=
  ⟨fun s => if s = ("http://e/x".toList)
            then some ⟨("http".toList), ("e".toList), none, ("/x".toList)⟩ else none,
   fun _ u => u,
   fun u => u.scheme ++ ("://".toList) ++ u.host ++ u.rest,
   fun s => s⟩

/-- The playlist base URL of the spec's rewrite example. -/
def baseW : GoURL :=
  ⟨("http".toList), ("origin.example".toList), none, ("/videos/show/index.m3u8".toList)⟩

/-! ## Theorems -/

/-- One unfolding step of `runAllowN`. -/
theorem runAllowN_succ (r b now : ℚ) (n : ℕ) (s : LimState) :
    runAllowN r b now (n + 1) s =
      ((if (limiterAllow r b now s).1 then 1 else 0) +
        (runAllowN r b now n (limiterAllow r b now s).2).1,
       (runAllowN r b now n (limiterAllow r b now s).2).2) := rfl

/-- Draining a limiter whose last update is `now`: `n` checks at that same
instant admit exactly `min n k` of a `k`-token bucket and leave the rest. -/
theorem runAllowN_drain (r b now : ℚ) (hb : 1 ≤ b) :
    ∀ (n k : ℕ), (k : ℚ) ≤ b →
      runAllowN r b now n ⟨(k : ℚ), now⟩ =
        (min n k, ⟨((k - min n k : ℕ) : ℚ), now⟩) := by
  intro n
  induction n with
  | zero => intro k _; simp [runAllowN]
  | succ n ih =>
    intro k hk
    match k with
    | 0 =>
      have hstep : limiterAllow r b now ⟨((0 : ℕ) : ℚ), now⟩ = (false, ⟨((0 : ℕ) : ℚ), now⟩) := by
        simp only [limiterAllow, advanceTokens, Nat.cast_zero, sub_self, zero_mul, add_zero]
        have hlt : ¬ b < (0 : ℚ) := by linarith
        rw [if_neg hlt, if_neg]
        rintro ⟨-, h01⟩
        linarith
      have hrest := ih 0 (by simpa using hk)
      simp only [runAllowN, hstep, hrest]
      simp
    | Nat.succ k' =>
      have hcast : ((Nat.succ k' : ℕ) : ℚ) - 1 = ((k' : ℕ) : ℚ) := by push_cast; ring
      have hstep : limiterAllow r b now ⟨((Nat.succ k' : ℕ) : ℚ), now⟩ =
          (true, ⟨((k' : ℕ) : ℚ), now⟩) := by
        simp only [limiterAllow, advanceTokens, sub_self, zero_mul, add_zero]
        have hlt : ¬ b < ((Nat.succ k' : ℕ) : ℚ) := by linarith
        rw [if_neg hlt, if_pos]
        · rw [hcast]
        · refine ⟨hb, ?_⟩
          rw [hcast]
          positivity
      have hk' : ((k' : ℕ) : ℚ) ≤ b := by
        have : ((k' : ℕ) : ℚ) ≤ ((Nat.succ k' : ℕ) : ℚ) := by push_cast; linarith
        linarith
      have hrest := ih k' hk'
      simp only [runAllowN, hstep, hrest]
      simp [Nat.succ_min_succ, Nat.succ_sub_succ, Nat.add_comm]

/-- C3 counterexample input: the limiter handed out by `AddIP` on a fresh
registry at rate 50, burst 100 is the full bucket. -/
theorem addIP_fresh_limiter :
    (AddIP 0 ("1.2.3.4".toList) (initRegistry 50 100)).1 = ⟨100, 0⟩ := by
  simp [AddIP, initRegistry, alFind, newLimiter]

/-- C3: the claim fails on the code. From the limiter `AddIP` creates for
rate 50 and burst 100, the first 100 immediate checks are admitted and the
101st rejected, but after one full idle second 100 further immediate checks
admit only 50 of them, not 100 as claimed. -/
theorem limiter_rate50_burst100_claim_ce :
    (runAllowN 50 100 0 101 (AddIP 0 ("1.2.3.4".toList) (initRegistry 50 100)).1).1 = 100 ∧
    (runAllowN 50 100 1 100
      (runAllowN 50 100 0 101 (AddIP 0 ("1.2.3.4".toList) (initRegistry 50 100)).1).2).1 = 50 ∧
    (runAllowN 50 100 1 100
      (runAllowN 50 100 0 101 (AddIP 0 ("1.2.3.4".toList) (initRegistry 50 100)).1).2).1 ≠ 100 := by
  have h0 : (AddIP 0 ("1.2.3.4".toList) (initRegistry 50 100)).1 = ⟨100, 0⟩ := by
    simp [AddIP, initRegistry, alFind, newLimiter]
  have h1' : runAllowN 50 100 0 101 (⟨100, 0⟩ : LimState) = (100, ⟨0, 0⟩) := by
    have e : (⟨100, 0⟩ : LimState) = (⟨((100 : ℕ) : ℚ), 0⟩ : LimState) := by norm_num
    rw [e, runAllowN_drain 50 100 0 (by norm_num) 101 100 (by norm_num)]
    norm_num
  have hstep : limiterAllow 50 100 1 ⟨0, 0⟩ = (true, ⟨49, 1⟩) := by
    simp only [limiterAllow, advanceTokens]
    norm_num
  have h2 : runAllowN 50 100 1 100 (⟨0, 0⟩ : LimState) = (50, ⟨0, 1⟩) := by
    have hn : (100 : ℕ) = 99 + 1 := by norm_num
    have e : (⟨49, 1⟩ : LimState) = (⟨((49 : ℕ) : ℚ), 1⟩ : LimState) := by norm_num
    rw [hn, runAllowN_succ, hstep]
    simp only
    rw [e, runAllowN_drain 50 100 1 (by norm_num) 99 49 (by norm_num)]
    norm_num
  refine ⟨?_, ?_, ?_⟩
  · rw [h0, h1']
  · rw [h0, h1', h2]
  · rw [h0, h1', h2]; norm_num

/-- C3 amended: 100 immediate checks on the fresh rate-50 burst-100 limiter
are all admitted and the 101st is rejected; after one full idle second only
50 further immediate checks are admitted (the 51st is rejected); 100 are
admitted again only after two full idle seconds. -/
theorem limiter_rate50_burst100_amended :
    runAllowN 50 100 0 100 (AddIP 0 ("1.2.3.4".toList) (initRegistry 50 100)).1 = (100, ⟨0, 0⟩) ∧
    limiterAllow 50 100 0 ⟨0, 0⟩ = (false, ⟨0, 0⟩) ∧
    (runAllowN 50 100 1 51 ⟨0, 0⟩).1 = 50 ∧
    limiterAllow 50 100 1 (runAllowN 50 100 1 51 ⟨0, 0⟩).2 = (false, (runAllowN 50 100 1 51 ⟨0, 0⟩).2) ∧
    (runAllowN 50 100 2 100 ⟨0, 0⟩).1 = 100 := by
  have h0 : (AddIP 0 ("1.2.3.4".toList) (initRegistry 50 100)).1 = ⟨100, 0⟩ := by
    simp [AddIP, initRegistry, alFind, newLimiter]
  have hreject : limiterAllow 50 100 0 (⟨0, 0⟩ : LimState) = (false, ⟨0, 0⟩) := by
    simp only [limiterAllow, advanceTokens]
    norm_num
  have hstep1 : limiterAllow 50 100 1 (⟨0, 0⟩ : LimState) = (true, ⟨49, 1⟩) := by
    simp only [limiterAllow, advanceTokens]
    norm_num
  have h2 : runAllowN 50 100 1 51 (⟨0, 0⟩ : LimState) = (50, ⟨0, 1⟩) := by
    have hn : (51 : ℕ) = 50 + 1 := by norm_num
    have e : (⟨49, 1⟩ : LimState) = (⟨((49 : ℕ) : ℚ), 1⟩ : LimState) := by norm_num
    rw [hn, runAllowN_succ, hstep1]
    simp only
    rw [e, runAllowN_drain 50 100 1 (by norm_num) 50 49 (by norm_num)]
    norm_num
  have hreject1 : limiterAllow 50 100 1 (⟨0, 1⟩ : LimState) = (false, ⟨0, 1⟩) := by
    simp only [limiterAllow, advanceTokens]
    norm_num
  have hstep2 : limiterAllow 50 100 2 (⟨0, 0⟩ : LimState) = (true, ⟨99, 2⟩) := by
    simp only [limiterAllow, advanceTokens]
    norm_num
  have h3 : runAllowN 50 100 2 100 (⟨0, 0⟩ : LimState) = (100, ⟨0, 2⟩) := by
    have hn : (100 : ℕ) = 99 + 1 := by norm_num
    have e : (⟨99, 2⟩ : LimState) = (⟨((99 : ℕ) : ℚ), 2⟩ : LimState) := by norm_num
    rw [hn, runAllowN_succ, hstep2]
    simp only
    rw [e, runAllowN_drain 50 100 2 (by norm_num) 99 99 (by norm_num)]
    norm_num
  refine ⟨?_, hreject, ?_, ?_, ?_⟩
  · rw [h0]
    have e : (⟨100, 0⟩ : LimState) = (⟨((100 : ℕ) : ℚ), 0⟩ : LimState) := by norm_num
    rw [e, runAllowN_drain 50 100 0 (by norm_num) 100 100 (by norm_num)]
    norm_num
  · rw [h2]
  · rw [h2, hreject1]
  · rw [h3]

/-- C6 counterexample: "httpx.ts" holds no colon, so it is not
scheme-qualified, and starts with neither "/" nor "//", yet `ResolveURL`
returns it unchanged instead of resolving it against the base directory as
the four-case rule dictates. -/
theorem resolveURL_scheme_qualified_ce :
    ("httpx.ts".toList).contains ':' = false ∧
    (("/".toList).isPrefixOf ("httpx.ts".toList)) = false ∧
    ResolveURL ("httpx.ts".toList) ⟨"http".toList, "h".toList, none, []⟩ ("/d/".toList) =
      ("httpx.ts".toList) ∧
    ResolveURL ("httpx.ts".toList) ⟨"http".toList, "h".toList, none, []⟩ ("/d/".toList) ≠
      ("http://h/d/httpx.ts".toList) := by
  refine ⟨by decide, by decide, by decide, by decide⟩

/-- C6 amended: `ResolveURL` obeys the four-case rule with the first case
keyed on the literal prefix "http" (not on being scheme-qualified): such
references pass through unchanged, "//" references get the base scheme, "/"
references get scheme and host, and all others are resolved against the
base directory as scheme ++ host ++ directory ++ reference. -/
theorem resolveURL_prefix_cases (u : Str) (base : GoURL) (basePath : Str) :
    (("http".toList).isPrefixOf u = true → ResolveURL u base basePath = u) ∧
    (("http".toList).isPrefixOf u = false → ("//".toList).isPrefixOf u = true →
      ResolveURL u base basePath = base.scheme ++ (":".toList) ++ u) ∧
    (("http".toList).isPrefixOf u = false → ("//".toList).isPrefixOf u = false →
      ("/".toList).isPrefixOf u = true →
      ResolveURL u base basePath = base.scheme ++ ("://".toList) ++ base.host ++ u) ∧
    (("http".toList).isPrefixOf u = false → ("//".toList).isPrefixOf u = false →
      ("/".toList).isPrefixOf u = false →
      ResolveURL u base basePath = base.scheme ++ ("://".toList) ++ base.host ++ basePath ++ u) := by
  refine ⟨?_, ?_, ?_, ?_⟩ <;> intros <;> simp_all [ResolveURL]

/-- C6 amended, instantiated: an absolute http URL passes through unchanged
and a bare segment resolves against the playlist directory. -/
theorem resolveURL_prefix_cases_witness :
    ResolveURL ("http://x/y.ts".toList) ⟨"https".toList, "b".toList, none, []⟩ ("/q/".toList) =
      ("http://x/y.ts".toList) ∧
    ResolveURL ("segment1.ts".toList) ⟨"http".toList, "origin.example".toList, none, []⟩
      ("/videos/show/".toList) = ("http://origin.example/videos/show/segment1.ts".toList) := by
  constructor
  · exact (resolveURL_prefix_cases _ _ _).1 (by decide)
  · have h := (resolveURL_prefix_cases ("segment1.ts".toList)
      ⟨"http".toList, "origin.example".toList, none, []⟩ ("/videos/show/".toList)).2.2.2
      (by decide) (by decide) (by decide)
    rw [h]
    decide

/-- Lookup after erasing a key. -/
theorem alFind_alErase {α : Type} (l : List (Str × α)) (k k' : Str) :
    alFind (alErase l k) k' = if k = k' then none else alFind l k' := by
  induction l with
  | nil => by_cases hk : k = k' <;> simp [alErase, alFind, hk]
  | cons hd t ih =>
    obtain ⟨k0, v0⟩ := hd
    by_cases h0 : k0 = k
    · subst h0
      by_cases hk : k0 = k'
      · subst hk; simpa [alErase] using ih
      · simpa [alErase, alFind, hk] using ih
    · by_cases hk : k = k'
      · subst hk
        have h0' : k0 ≠ k := h0
        simp [alErase, alFind, h0', ih]
      · by_cases h1 : k0 = k'
        · subst h1; simp [alErase, alFind, h0, hk, ih]
        · simp [alErase, alFind, h0, hk, h1, ih]

/-- Lookup after storing a key. -/
theorem alFind_alStore {α : Type} (l : List (Str × α)) (k : Str) (v : α) (k' : Str) :
    alFind (alStore l k v) k' = if k = k' then some v else alFind l k' := by
  by_cases hk : k = k' <;> simp [alStore, alFind, hk, alFind_alErase]

/-- Addresses the connect loop attempts come from its input list. -/
theorem dialAttempts_mem (env : DialEnv) (port : Str) :
    ∀ ips ip, ip ∈ (dialAttempts env port ips).2 → ip ∈ ips := by
  intro ips
  induction ips with
  | nil => intro ip h; simp [dialAttempts] at h
  | cons a rest ih =>
    intro ip h
    by_cases hd : env.dialOk a port
    · simp [dialAttempts, hd] at h
      simp [h]
    · simp only [dialAttempts, hd, if_neg, Bool.false_eq_true, if_false] at h
      rcases List.mem_cons.mp h with h1 | h2
      · simp [h1]
      · exact List.mem_cons_of_mem a (ih ip h2)

/-- A rejected fresh resolution leaves the cache untouched. -/
theorem resolveFresh_ssrf (env : ResolveEnv) (now : Nat) (host : Str)
    (c : DnsCache) (ips : List IP)
    (hres : env.resolve host = some ips)
    (hany : ips.any (fun ip => IsPrivateIP ip) = true) :
    resolveFresh env now host c = ⟨.ssrfError, c⟩ := by
  simp [resolveFresh, hres, hany]

/-- Every address set `lookupIPSafe` reports over a safe cache is free of
private addresses. -/
theorem lookupIPSafe_ok_no_private (env : ResolveEnv) (now : Nat) (host : Str)
    (cache : DnsCache) (hsafe : CacheSafe cache) (ips : List IP)
    (hres : (lookupIPSafe env now host cache).res = .ok ips) :
    ∀ ip ∈ ips, IsPrivateIP ip = false := by
  intro ip hip
  rcases hp : env.parseIP host with - | lit
  · rcases hc : cacheFind cache host with - | e
    · rcases hr : env.resolve host with - | rips
      · simp [lookupIPSafe, resolveFresh, hp, hc, hr] at hres
      · by_cases hany : rips.any (fun q => IsPrivateIP q) = true
        · simp [lookupIPSafe, resolveFresh, hp, hc, hr, hany] at hres
        · have : rips = ips := by
            simpa [lookupIPSafe, resolveFresh, hp, hc, hr, hany] using hres
          subst this
          have := List.any_eq_true.not.mp hany
          push_neg at this
          have h2 := this ip hip
          simpa using h2
    · by_cases hl : now < e.expiry
      · have : e.ips = ips := by
          simpa [lookupIPSafe, hp, hc, hl] using hres
        subst this
        exact hsafe host e hc ip hip
      · rcases hr : env.resolve host with - | rips
        · simp [lookupIPSafe, resolveFresh, hp, hc, hl, hr] at hres
        · by_cases hany : rips.any (fun q => IsPrivateIP q) = true
          · simp [lookupIPSafe, resolveFresh, hp, hc, hl, hr, hany] at hres
          · have : rips = ips := by
              simpa [lookupIPSafe, resolveFresh, hp, hc, hl, hr, hany] using hres
            subst this
            have := List.any_eq_true.not.mp hany
            push_neg at this
            have h2 := this ip hip
            simpa using h2
  · by_cases hpriv : IsPrivateIP lit = true
    · simp [lookupIPSafe, hp, hpriv] at hres
    · have hl : [lit] = ips := by simpa [lookupIPSafe, hp, hpriv] using hres
      subst hl
      have heq : ip = lit := by simpa using hip
      rw [heq]
      simpa using hpriv

/-- C1: over a safe cache, `SafeDialContext` never attempts a connection to
a private address; a literal private host, or a fresh resolution containing
any private address, yields the SSRF rejection before any connection
attempt. -/
theorem safeDialContext_blocks_private (env : DialEnv) (now : Nat) (addr : Str)
    (cache : DnsCache) (host port : Str)
    (hsafe : CacheSafe cache)
    (hsplit : env.splitHostPort addr = some (host, port)) :
    (∀ ip ∈ (SafeDialContext env now addr cache).attempts, IsPrivateIP ip = false) ∧
    (∀ ip, env.parseIP host = some ip → IsPrivateIP ip = true →
      (SafeDialContext env now addr cache).outcome = DialOutcome.errSSRF ∧
      (SafeDialContext env now addr cache).attempts = []) ∧
    (env.parseIP host = none →
      (∀ e, cacheFind cache host = some e → e.expiry ≤ now) →
      ∀ ips, env.resolve host = some ips → ips.any (fun ip => IsPrivateIP ip) = true →
      (SafeDialContext env now addr cache).outcome = DialOutcome.errSSRF ∧
      (SafeDialContext env now addr cache).attempts = []) := by
  refine ⟨?_, ?_, ?_⟩
  · intro ip hip
    rcases hl : lookupIPSafe env.toResolveEnv now host cache with ⟨res, c⟩
    rcases res with ips | - | -
    · have hok : (lookupIPSafe env.toResolveEnv now host cache).res = .ok ips := by
        rw [hl]
      have hnp := lookupIPSafe_ok_no_private env.toResolveEnv now host cache hsafe ips hok
      rcases hd : dialAttempts env port ips with ⟨r, as⟩
      have has : ip ∈ as → ip ∈ ips := by
        intro h
        have := dialAttempts_mem env port ips ip
        rw [hd] at this
        exact this h
      rcases r with - | cip
      · by_cases he : as.isEmpty
        · simp [SafeDialContext, hsplit, hl, hd, he] at hip
        · simp only [SafeDialContext, hsplit, hl, hd, he, Bool.false_eq_true, if_false] at hip
          exact hnp ip (has hip)
      · simp only [SafeDialContext, hsplit, hl, hd] at hip
        exact hnp ip (has hip)
    · simp [SafeDialContext, hsplit, hl] at hip
    · simp [SafeDialContext, hsplit, hl] at hip
  · intro ip hp hpriv
    have hl : lookupIPSafe env.toResolveEnv now host cache = ⟨.ssrfError, cache⟩ := by
      simp [lookupIPSafe, hp, hpriv]
    simp [SafeDialContext, hsplit, hl]
  · intro hp hexp ips hres hany
    have hl : lookupIPSafe env.toResolveEnv now host cache =
        resolveFresh env.toResolveEnv now host (cacheErase cache host) ∨
        lookupIPSafe env.toResolveEnv now host cache =
        resolveFresh env.toResolveEnv now host cache := by
      rcases hc : cacheFind cache host with - | e
      · right; simp [lookupIPSafe, hp, hc]
      · left
        have := hexp e hc
        have hnl : ¬ now < e.expiry := by omega
        simp [lookupIPSafe, hp, hc, hnl]
    rcases hl with hl | hl <;>
      rw [resolveFresh_ssrf env.toResolveEnv now host _ ips hres hany] at hl <;>
      simp [SafeDialContext, hsplit, hl]

/-- C1 at a concrete input: dialing the literal loopback address
"127.0.0.1:80" over the empty cache is rejected as SSRF with no connection
attempt. -/
theorem safeDialContext_blocks_private_witness :
    (SafeDialContext
      ⟨⟨fun s => if s = ("127.0.0.1".toList) then some (.v4 127 0 0 1) else none,
        fun _ => none⟩,
       fun a => if a = ("127.0.0.1:80".toList)
                then some (("127.0.0.1".toList), ("80".toList)) else none,
       fun _ _ => true⟩
      0 ("127.0.0.1:80".toList) []).outcome = DialOutcome.errSSRF ∧
    (SafeDialContext
      ⟨⟨fun s => if s = ("127.0.0.1".toList) then some (.v4 127 0 0 1) else none,
        fun _ => none⟩,
       fun a => if a = ("127.0.0.1:80".toList)
                then some (("127.0.0.1".toList), ("80".toList)) else none,
       fun _ _ => true⟩
      0 ("127.0.0.1:80".toList) []).attempts = [] := by
  exact (safeDialContext_blocks_private _ 0 _ [] ("127.0.0.1".toList) ("80".toList)
    (by intro h e he ip _; simp [cacheFind, alFind] at he)
    (by simp)).2.1 (.v4 127 0 0 1) (by simp) (by decide)

/-- C2: one `lookupIPSafe` step preserves cache safety; any binding it adds
carries the filtered address set with a five-minute (300 second) expiry; an
entry found expired is deleted and the lookup proceeds as a fresh
resolution; and a resolution with any private address reports the SSRF
rejection and leaves nothing cached for the host. -/
theorem dnsCache_invariant_lookup (env : ResolveEnv) (now : Nat) (host : Str)
    (cache : DnsCache) (hsafe : CacheSafe cache) :
    CacheSafe (lookupIPSafe env now host cache).cache ∧
    (∀ h e, cacheFind (lookupIPSafe env now host cache).cache h = some e →
      cacheFind cache h = some e ∨
      (h = host ∧ e.expiry = now + 300 ∧ env.resolve host = some e.ips ∧
        e.ips.any (fun ip => IsPrivateIP ip) = false)) ∧
    (∀ e, cacheFind cache host = some e → e.expiry ≤ now → env.parseIP host = none →
      lookupIPSafe env now host cache = resolveFresh env now host (cacheErase cache host)) ∧
    (env.parseIP host = none →
      (∀ e, cacheFind cache host = some e → e.expiry ≤ now) →
      ∀ ips, env.resolve host = some ips → ips.any (fun ip => IsPrivateIP ip) = true →
      (lookupIPSafe env now host cache).res = LookupResult.ssrfError ∧
      cacheFind (lookupIPSafe env now host cache).cache host = none) := by
  have herase : CacheSafe (cacheErase cache host) := by
    intro h e he ip hip
    simp only [cacheFind, cacheErase] at he
    rw [alFind_alErase] at he
    by_cases hh : host = h
    · simp [hh] at he
    · rw [if_neg hh] at he
      exact hsafe h e he ip hip
  have hfresh : ∀ c : DnsCache, CacheSafe c →
      CacheSafe (resolveFresh env now host c).cache := by
    intro c hc
    rcases hr : env.resolve host with - | rips
    · simpa [resolveFresh, hr] using hc
    · by_cases hany : rips.any (fun q => IsPrivateIP q) = true
      · simpa [resolveFresh, hr, hany] using hc
      · intro h e he ip hip
        simp only [resolveFresh, hr, hany, Bool.false_eq_true, if_false] at he
        rw [cacheStore, cacheFind, alFind_alStore] at he
        by_cases hh : host = h
        · rw [if_pos hh] at he
          have he' : e = ⟨rips, now + 300⟩ := by simpa using he.symm
          subst he'
          have := List.any_eq_true.not.mp (by simpa using hany)
          push_neg at this
          have h2 := this ip hip
          simpa using h2
        · rw [if_neg hh] at he
          exact hc h e he ip hip
  have hfreshNew : ∀ c : DnsCache, ∀ h e,
      cacheFind (resolveFresh env now host c).cache h = some e →
      cacheFind c h = some e ∨
      (h = host ∧ e.expiry = now + 300 ∧ env.resolve host = some e.ips ∧
        e.ips.any (fun ip => IsPrivateIP ip) = false) := by
    intro c h e he
    rcases hr : env.resolve host with - | rips
    · left; simpa [resolveFresh, hr] using he
    · by_cases hany : rips.any (fun q => IsPrivateIP q) = true
      · left; simpa [resolveFresh, hr, hany] using he
      · simp only [resolveFresh, hr, hany, Bool.false_eq_true, if_false] at he
        rw [cacheStore, cacheFind, alFind_alStore] at he
        by_cases hh : host = h
        · right
          rw [if_pos hh] at he
          have he' : e = ⟨rips, now + 300⟩ := by simpa using he.symm
          subst he'
          exact ⟨hh.symm, rfl, rfl, by simpa using hany⟩
        · left
          rw [if_neg hh] at he
          exact he
  refine ⟨?_, ?_, ?_, ?_⟩
  · rcases hp : env.parseIP host with - | lit
    · rcases hc : cacheFind cache host with - | e
      · simpa [lookupIPSafe, hp, hc] using hfresh cache hsafe
      · by_cases hl : now < e.expiry
        · simpa [lookupIPSafe, hp, hc, hl] using hsafe
        · simpa [lookupIPSafe, hp, hc, hl] using hfresh (cacheErase cache host) herase
    · by_cases hpriv : IsPrivateIP lit = true
      · simpa [lookupIPSafe, hp, hpriv] using hsafe
      · simpa [lookupIPSafe, hp, hpriv] using hsafe
  · intro h e he
    rcases hp : env.parseIP host with - | lit
    · rcases hc : cacheFind cache host with - | e0
      · rw [show (lookupIPSafe env now host cache) = resolveFresh env now host cache by
          simp [lookupIPSafe, hp, hc]] at he
        exact hfreshNew cache h e he
      · by_cases hl : now < e0.expiry
        · left; simpa [lookupIPSafe, hp, hc, hl] using he
        · rw [show (lookupIPSafe env now host cache) =
              resolveFresh env now host (cacheErase cache host) by
            simp [lookupIPSafe, hp, hc, hl]] at he
          rcases hfreshNew (cacheErase cache host) h e he with hin | hnew
          · left
            rw [cacheErase, cacheFind, alFind_alErase] at hin
            by_cases hh : host = h
            · simp [hh] at hin
            · rwa [if_neg hh] at hin
          · right; exact hnew
    · by_cases hpriv : IsPrivateIP lit = true
      · left; simpa [lookupIPSafe, hp, hpriv] using he
      · left; simpa [lookupIPSafe, hp, hpriv] using he
  · intro e he hexp hp
    have hnl : ¬ now < e.expiry := by omega
    simp [lookupIPSafe, hp, he, hnl]
  · intro hp hexp ips hres hany
    rcases hc : cacheFind cache host with - | e
    · have hl : lookupIPSafe env now host cache = ⟨.ssrfError, cache⟩ := by
        rw [show (lookupIPSafe env now host cache) = resolveFresh env now host cache by
          simp [lookupIPSafe, hp, hc]]
        exact resolveFresh_ssrf env now host cache ips hres hany
      rw [hl]
      exact ⟨rfl, hc⟩
    · have hnl : ¬ now < e.expiry := by have := hexp e hc; omega
      have hl : lookupIPSafe env now host cache = ⟨.ssrfError, cacheErase cache host⟩ := by
        rw [show (lookupIPSafe env now host cache) =
            resolveFresh env now host (cacheErase cache host) by
          simp [lookupIPSafe, hp, hc, hnl]]
        exact resolveFresh_ssrf env now host _ ips hres hany
      rw [hl]
      refine ⟨rfl, ?_⟩
      rw [cacheErase, cacheFind, alFind_alErase]
      simp

/-- C8: evaluated at a request from an untrusted peer carrying
X-Forwarded-Proto https over a plain-TCP connection, `GetProxyOrigin`
honours the header and reports an https origin, instead of ignoring the
header as the claim requires. -/
theorem getProxyOrigin_header_unconditional :
    GetProxyOrigin ⟨"203.0.113.9:4444".toList, [], [], "https".toList,
      "example.com".toList, false⟩ = ("https://example.com".toList) ∧
    ("https://example.com".toList : Str) ≠ ("http://example.com".toList) := by
  refine ⟨by decide, by decide⟩

/-- C2 at a concrete input: looking up "internal.test", which resolves to
10.0.0.1, over the empty cache reports the SSRF rejection and caches
nothing. -/
theorem dnsCache_invariant_lookup_witness :
    (lookupIPSafe resolveEnvW 0 ("internal.test".toList) []).res = LookupResult.ssrfError ∧
    cacheFind (lookupIPSafe resolveEnvW 0 ("internal.test".toList) []).cache
      ("internal.test".toList) = none := by
  exact (dnsCache_invariant_lookup resolveEnvW 0 ("internal.test".toList) []
    (by intro h e he ip hip; simp [cacheFind, alFind] at he)).2.2.2
    rfl
    (by intro e he; simp [cacheFind, alFind] at he)
    [.v4 10 0 0 1] (by decide) (by decide)

/-- C4: for every request to the assembled server, the admission check
decides the outcome before any handler: a non-admitted request gets the 429
response, an admitted one gets exactly the wrapped mux's response, and on a
non-admitted request the result is independent of whatever handlers are
installed. -/
theorem requestGate_admission_first {α : Type} (env : MwEnv) (now : ℚ)
    (st : RateLimiterState) (req : HttpRequest) :
    (gateAdmitted env now st req = false →
      ∀ (mux : HttpRequest → α),
        (mainServer env mux now st req).1 = GateResponse.tooManyRequests) ∧
    (gateAdmitted env now st req = true →
      ∀ (mux : HttpRequest → α),
        (mainServer env mux now st req).1 = GateResponse.handled (mux req)) ∧
    (gateAdmitted env now st req = false →
      ∀ (mux1 mux2 : HttpRequest → α),
        mainServer env mux1 now st req = mainServer env mux2 now st req) := by
  refine ⟨?_, ?_, ?_⟩
  · intro h mux
    simp only [gateAdmitted] at h
    simp [mainServer, LimitMiddleware, h]
  · intro h mux
    simp only [gateAdmitted] at h
    simp [mainServer, LimitMiddleware, h]
  · intro h mux1 mux2
    simp only [gateAdmitted] at h
    simp [mainServer, LimitMiddleware, h]

/-- C4 at a concrete input: with burst 0 every request is rejected with 429
by the assembled server, whatever handler is behind the gate. -/
theorem requestGate_admission_first_witness :
    (mainServer mwEnvW (fun _ => (0 : Nat)) 0 (initRegistry 50 0) reqGateW).1 =
      GateResponse.tooManyRequests := by
  have hadm : gateAdmitted mwEnvW 0 (initRegistry 50 0) reqGateW = false := by
    simp only [gateAdmitted, GetLimiter, initRegistry, alFind, AddIP, newLimiter]
    simp only [limiterAllow, advanceTokens]
    norm_num
  exact (requestGate_admission_first mwEnvW 0 (initRegistry 50 0) reqGateW).1 hadm
    (fun _ => (0 : Nat))

/-- C5: a 3xx `Location` value is overwritten exactly when it is non-blank,
parses, and its resolution against the target URL passes the same
scheme/host/userinfo validation as an original target, in which case the
written value is the proxy origin plus the escaped absolute target; and a
host that is a literal private IP is rejected by the safe dialer with no
connection attempt when the proxied link is followed. -/
theorem locationRewrite_validated (env : URLEnv) (status : Nat) (loc : Str)
    (target : GoURL) (origin : Str) :
    (∀ newLoc, rewriteLocation env status loc target origin = some newLoc ↔
      (300 ≤ status ∧ status < 400 ∧ trimGo loc ≠ [] ∧
       ∃ u, env.parse (trimGo loc) = some u ∧
         ValidateTargetURL (some (env.resolveRef target u)) = true ∧
         newLoc = origin ++ ("/?url=".toList) ++
           env.queryEscape (env.urlString (env.resolveRef target u)))) ∧
    (∀ (denv : DialEnv) (now : Nat) (addr : Str) (cache : DnsCache) (host port : Str) (ip : IP),
      denv.splitHostPort addr = some (host, port) →
      denv.parseIP host = some ip → IsPrivateIP ip = true →
      (SafeDialContext denv now addr cache).outcome = DialOutcome.errSSRF ∧
      (SafeDialContext denv now addr cache).attempts = []) := by
  constructor
  · intro newLoc
    constructor
    · intro h
      simp only [rewriteLocation] at h
      split_ifs at h with h1 h2
      rcases hp : env.parse (trimGo loc) with - | u
      · rw [hp] at h; simp at h
      · rw [hp] at h
        by_cases hv : ValidateTargetURL (some (env.resolveRef target u)) = true
        · simp only [hv, if_true] at h
          exact ⟨h1.1, h1.2, h2, u, rfl, hv, by simpa using h.symm⟩
        · simp [hv] at h
    · rintro ⟨hs1, hs2, hne, u, hp, hv, hn⟩
      simp [rewriteLocation, hs1, hs2, hne, hp, hv, hn]
  · intro denv now addr cache host port ip hsplit hp hpriv
    have hl : lookupIPSafe denv.toResolveEnv now host cache = ⟨.ssrfError, cache⟩ := by
      simp [lookupIPSafe, hp, hpriv]
    simp [SafeDialContext, hsplit, hl]

/-- C5 at a concrete input: a 302 redirect to "http://e/x" is rewritten
into the proxy-relative link carrying the absolute target. -/
theorem locationRewrite_validated_witness :
    rewriteLocation urlEnvW 302 ("http://e/x".toList)
      ⟨("http".toList), ("t".toList), none, []⟩ ("http://p".toList) =
      some ("http://p/?url=http://e/x".toList) := by
  exact ((locationRewrite_validated urlEnvW 302 ("http://e/x".toList)
    ⟨("http".toList), ("t".toList), none, []⟩ ("http://p".toList)).1 _).mpr
    ⟨by norm_num, by norm_num, by decide,
     ⟨("http".toList), ("e".toList), none, ("/x".toList)⟩, by decide, by decide, by decide⟩

/-- C7: after configuration, the rate-limiting key is the forwarded identity
exactly when trust is enabled and the parsed peer lies inside a trusted
network; in every other case it is the peer address; the forwarded identity
itself is the left-most forwarded-for entry when it parses, else a valid
real-IP header, else the peer; and with no valid CIDR configured the
trusted networks default to the loopback ranges. -/
theorem clientKey_trusted_forwarding (env : MwEnv) (cenv : CidrEnv) (tp : Bool)
    (cidrs : Str) (st0 : RateLimiterState) (req : HttpRequest) :
    (tp = false →
      limiterKey env (EnableTrustedProxies cenv tp cidrs st0) req = peerIPStr env req) ∧
    (env.parseIP (trimGo (peerIPStr env req)) = none →
      limiterKey env (EnableTrustedProxies cenv tp cidrs st0) req = peerIPStr env req) ∧
    (∀ ip, env.parseIP (trimGo (peerIPStr env req)) = some ip →
      (EnableTrustedProxies cenv tp cidrs st0).trustedNets.any
        (fun n => ipnetContains n ip) = false →
      limiterKey env (EnableTrustedProxies cenv tp cidrs st0) req = peerIPStr env req) ∧
    (tp = true → ∀ ip, env.parseIP (trimGo (peerIPStr env req)) = some ip →
      (EnableTrustedProxies cenv tp cidrs st0).trustedNets.any
        (fun n => ipnetContains n ip) = true →
      limiterKey env (EnableTrustedProxies cenv tp cidrs st0) req =
        extractClientIP env req (peerIPStr env req)) ∧
    (∀ fallback ip, req.xForwardedFor ≠ [] →
      env.parseIP (trimGo (firstCommaField req.xForwardedFor)) = some ip →
      extractClientIP env req fallback = env.ipString ip) ∧
    (∀ fallback ip,
      (req.xForwardedFor = [] ∨
        env.parseIP (trimGo (firstCommaField req.xForwardedFor)) = none) →
      trimGo req.xRealIP ≠ [] → env.parseIP (trimGo req.xRealIP) = some ip →
      extractClientIP env req fallback = env.ipString ip) ∧
    (∀ fallback,
      (req.xForwardedFor = [] ∨
        env.parseIP (trimGo (firstCommaField req.xForwardedFor)) = none) →
      (trimGo req.xRealIP = [] ∨ env.parseIP (trimGo req.xRealIP) = none) →
      extractClientIP env req fallback = fallback) ∧
    (tp = true → parseTrustedNets cenv cidrs = [] →
      (EnableTrustedProxies cenv tp cidrs st0).trustedNets = defaultLoopbackNets) := by
  refine ⟨?_, ?_, ?_, ?_, ?_, ?_, ?_, ?_⟩
  · intro htp
    subst htp
    have hfalse : isTrustedProxy (EnableTrustedProxies cenv false cidrs st0)
        (env.parseIP (trimGo (peerIPStr env req))) = false := by
      rcases env.parseIP (trimGo (peerIPStr env req)) with _ | ip <;>
        simp [isTrustedProxy, EnableTrustedProxies]
    simp [limiterKey, hfalse]
  · intro hp
    simp [limiterKey, isTrustedProxy, hp]
  · intro ip hp hany
    rcases hg : ((!(EnableTrustedProxies cenv tp cidrs st0).trustProxy) ||
        (EnableTrustedProxies cenv tp cidrs st0).trustedNets.isEmpty) with _ | _
    · simp [limiterKey, isTrustedProxy, hp, hg, hany]
    · simp [limiterKey, isTrustedProxy, hp, hg]
  · intro htp ip hp hany
    subst htp
    have htrust : (EnableTrustedProxies cenv true cidrs st0).trustProxy = true := by
      simp [EnableTrustedProxies]
    have hne : (EnableTrustedProxies cenv true cidrs st0).trustedNets.isEmpty = false := by
      rcases List.any_eq_true.mp hany with ⟨n, hn, -⟩
      rcases he : (EnableTrustedProxies cenv true cidrs st0).trustedNets with _ | ⟨n0, t0⟩
      · rw [he] at hn; simp at hn
      · simp [he]
    simp [limiterKey, isTrustedProxy, hp, htrust, hne, hany]
  · intro fallback ip hxff hp
    simp [extractClientIP, hxff, hp]
  · intro fallback ip hxff hxr hp
    rcases hxff with hxff | hxff
    · simp [extractClientIP, hxff, hxr, hp]
    · by_cases hx : req.xForwardedFor = []
      · simp [extractClientIP, hx, hxr, hp]
      · simp [extractClientIP, hx, hxff, hxr, hp]
  · intro fallback hxff hxr
    rcases hxff with hxff | hxff
    · rcases hxr with hxr | hxr
      · simp [extractClientIP, hxff, hxr]
      · by_cases hx : trimGo req.xRealIP = []
        · simp [extractClientIP, hxff, hx]
        · simp [extractClientIP, hxff, hx, hxr]
    · by_cases hx0 : req.xForwardedFor = []
      · rcases hxr with hxr | hxr
        · simp [extractClientIP, hx0, hxr]
        · by_cases hx : trimGo req.xRealIP = []
          · simp [extractClientIP, hx0, hx]
          · simp [extractClientIP, hx0, hx, hxr]
      · rcases hxr with hxr | hxr
        · simp [extractClientIP, hx0, hxff, hxr]
        · by_cases hx : trimGo req.xRealIP = []
          · simp [extractClientIP, hx0, hxff, hx]
          · simp [extractClientIP, hx0, hxff, hx, hxr]
  · intro htp hempty
    subst htp
    simp [EnableTrustedProxies, hempty]

/-- C7 at a concrete input: trust on with no valid CIDRs defaults to the
loopback ranges, the loopback peer is trusted, and the forwarded-for entry
9.9.9.9 becomes the limiter key. -/
theorem clientKey_trusted_forwarding_witness :
    limiterKey mwEnvW (EnableTrustedProxies cidrEnvW true [] (initRegistry 50 100))
      reqTrustedW = ("9.9.9.9".toList) := by
  have h4 := (clientKey_trusted_forwarding mwEnvW cidrEnvW true [] (initRegistry 50 100)
    reqTrustedW).2.2.2.1 rfl (.v4 127 0 0 1) (by decide) (by decide)
  have h5 := (clientKey_trusted_forwarding mwEnvW cidrEnvW true [] (initRegistry 50 100)
    reqTrustedW).2.2.2.2.1 (peerIPStr mwEnvW reqTrustedW) (.v4 9 9 9 9)
    (by decide) (by decide)
  rw [h4, h5]
  decide

/-- A key is found exactly when some binding of it is present. -/
theorem alFind_isSome_iff {α : Type} (l : List (Str × α)) (k : Str) :
    (alFind l k).isSome = true ↔ ∃ v, (k, v) ∈ l := by
  induction l with
  | nil => simp [alFind]
  | cons hd t ih =>
    obtain ⟨k0, v0⟩ := hd
    by_cases h0 : k0 = k
    · subst h0
      simp [alFind]
    · have h0' : (k0 == k) = false := by simpa using h0
      simp only [alFind, h0', Bool.false_eq_true, if_false, ih]
      constructor
      · rintro ⟨v, hv⟩
        exact ⟨v, List.mem_cons_of_mem _ hv⟩
      · rintro ⟨v, hv⟩
        rcases List.mem_cons.mp hv with h | h
        · exfalso
          exact h0 (by injection h with h1 h2; exact h1.symm) |>.elim
        · exact ⟨v, h⟩

/-- Filtering by a key set removes exactly the bindings of its keys. -/
theorem alFind_filter_key {α : Type} (sk : List Str) (l : List (Str × α)) (k : Str) :
    (alFind (l.filter (fun p => !(sk.contains p.1))) k).isSome =
      ((alFind l k).isSome && !(sk.contains k)) := by
  by_cases hc : sk.contains k = true
  · simp only [hc, Bool.not_true, Bool.and_false]
    rcases hs : (alFind (l.filter (fun p => !(sk.contains p.1))) k).isSome with _ | _
    · rfl
    · exfalso
      obtain ⟨v, hv⟩ := (alFind_isSome_iff _ k).mp hs
      have hnot : k ∉ sk := by simpa using (List.mem_filter.mp hv).2
      exact hnot (by simpa using hc)
  · have hc' : sk.contains k = false := by
      rcases h : sk.contains k with _ | _
      · rfl
      · exact absurd h hc
    simp only [hc', Bool.not_false, Bool.and_true]
    rw [Bool.eq_iff_iff]
    rw [alFind_isSome_iff, alFind_isSome_iff]
    constructor
    · rintro ⟨v, hv⟩
      exact ⟨v, (List.mem_filter.mp hv).1⟩
    · rintro ⟨v, hv⟩
      refine ⟨v, List.mem_filter.mpr ⟨hv, ?_⟩⟩
      simpa using hc'

/-- The lockstep invariant of the registry: a key has a limiter exactly when
it has a last-seen stamp. -/
def regLockstep (st : RateLimiterState) : Prop :=
  ∀ k, (alFind st.ips k).isSome = (alFind st.lastSeen k).isSome

/-- `AddIP` preserves the lockstep invariant. -/
theorem regLockstep_addIP (now : ℚ) (key : Str) (st : RateLimiterState)
    (h : regLockstep st) : regLockstep (AddIP now key st).2 := by
  intro k
  rcases hf : alFind st.ips key with _ | lim
  · simp only [AddIP, hf]
    by_cases hk : key = k
    · subst hk
      simp [alFind_alStore]
    · simp [alFind_alStore, hk, h k]
  · simp only [AddIP, hf]
    by_cases hk : key = k
    · subst hk
      simp [alFind_alStore, hf]
    · simp [alFind_alStore, hk, h k]

/-- `GetLimiter` preserves the lockstep invariant. -/
theorem regLockstep_getLimiter (now : ℚ) (key : Str) (st : RateLimiterState)
    (h : regLockstep st) : regLockstep (GetLimiter now key st).2 := by
  intro k
  rcases hf : alFind st.ips key with _ | lim
  · simp only [GetLimiter, hf]
    exact regLockstep_addIP now key st h k
  · simp only [GetLimiter, hf]
    by_cases hk : key = k
    · subst hk
      simp [alFind_alStore, hf]
    · simp [alFind_alStore, hk, h k]

/-- The cleanup sweep preserves the lockstep invariant. -/
theorem regLockstep_sweep (now : ℚ) (st : RateLimiterState)
    (h : regLockstep st) : regLockstep (cleanupSweep now st) := by
  intro k
  simp only [cleanupSweep]
  rw [alFind_filter_key, alFind_filter_key, h k]

/-- Any sequence of registry operations preserves the lockstep invariant. -/
theorem regLockstep_run (ops : List RegOp) :
    ∀ st : RateLimiterState, regLockstep st → regLockstep (runRegOps st ops) := by
  induction ops with
  | nil => intro st h; simpa [runRegOps] using h
  | cons op t ih =>
    intro st h
    have hstep : regLockstep (applyRegOp st op) := by
      rcases op with ⟨now, key⟩ | ⟨now, key⟩ | now
      · exact regLockstep_addIP now key st h
      · exact regLockstep_getLimiter now key st h
      · exact regLockstep_sweep now st h
    simpa [runRegOps] using ih (applyRegOp st op) hstep

/-- C10: after any sequence of `AddIP`, `GetLimiter`, and cleanup-sweep
operations from a fresh registry, the limiter map and the last-seen map hold
exactly the same keys. -/
theorem registry_maps_lockstep (r b : ℚ) (ops : List RegOp) (k : Str) :
    (alFind (runRegOps (initRegistry r b) ops).ips k).isSome =
      (alFind (runRegOps (initRegistry r b) ops).lastSeen k).isSome := by
  have hinit : regLockstep (initRegistry r b) := by
    intro k0; simp [initRegistry, alFind]
  exact regLockstep_run ops (initRegistry r b) hinit k

/-- A Bool that is not true is false. -/
theorem bool_eq_false {b : Bool} (h : ¬ b = true) : b = false := by
  cases b
  · rfl
  · exact absurd rfl h

/-- Unfolding equation for `containsSub` on a cons. -/
theorem containsSub_eq (c : Char) (t : Str) :
    containsSub uriSep (c :: t) = (uriSep.isPrefixOf (c :: t) || containsSub uriSep t) := rfl

/-- Being a prefix, as an explicit decomposition. -/
theorem isPrefixOf_exists (p s : Str) : p.isPrefixOf s = true ↔ ∃ r, s = p ++ r := by
  induction p generalizing s with
  | nil =>
    simp [List.isPrefixOf]
  | cons c pt ih =>
    cases s with
    | nil => simp [List.isPrefixOf]
    | cons d st =>
      simp only [List.isPrefixOf, Bool.and_eq_true, beq_iff_eq, ih, List.cons_append,
        List.cons.injEq]
      constructor
      · rintro ⟨h1, r, h2⟩
        exact ⟨r, h1.symm, h2⟩
      · rintro ⟨r, h1, h2⟩
        exact ⟨h1.symm, r, h2⟩

/-- The marker has five characters. -/
theorem uriSep_length : uriSep.length = 5 := by decide

/-- A found marker occurrence decomposes the string around it. -/
theorem findSep_decomp : ∀ (s : Str) (pp : Str × Str),
    findSep s = some pp → s = pp.1 ++ uriSep ++ pp.2 := by
  intro s
  induction s with
  | nil => intro pp h; simp [findSep] at h
  | cons c t ih =>
    intro pp h
    by_cases hp : uriSep.isPrefixOf (c :: t) = true
    · simp only [findSep, hp, if_true] at h
      obtain ⟨r, hr⟩ := (isPrefixOf_exists uriSep (c :: t)).mp hp
      have hpp : pp = ([], t.drop 4) := by simpa using h.symm
      subst hpp
      have hdl : (uriSep ++ r).drop uriSep.length = r := List.drop_left _ _
      rw [uriSep_length] at hdl
      have h4 : r = t.drop 4 := by
        have h5 : (c :: t).drop 5 = r := by rw [hr]; exact hdl
        have h6 : (c :: t).drop 5 = t.drop 4 := rfl
        rw [← h5, h6]
      simp only [List.nil_append]
      rw [hr, h4]
    · have hp' : uriSep.isPrefixOf (c :: t) = false := bool_eq_false hp
      simp only [findSep, hp', Bool.false_eq_true, if_false] at h
      rcases hf : findSep t with _ | pp'
      · rw [hf] at h; simp at h
      · rw [hf] at h
        have hpp : pp = (c :: pp'.1, pp'.2) := by simpa using h.symm
        subst hpp
        simp only [List.cons_append]
        rw [← List.cons_append]
        simp only [List.cons_append]
        rw [ih pp' hf]

/-- The marker is found exactly when the string contains it. -/
theorem findSep_none_iff (s : Str) : findSep s = none ↔ containsSub uriSep s = false := by
  induction s with
  | nil =>
    have h0 : containsSub uriSep ([] : Str) = false := by decide
    simp [findSep, h0]
  | cons c t ih =>
    by_cases hp : uriSep.isPrefixOf (c :: t) = true
    · simp [findSep, containsSub_eq, hp]
    · have hp' : uriSep.isPrefixOf (c :: t) = false := bool_eq_false hp
      rcases hf : findSep t with _ | pp
      · simp [findSep, containsSub_eq, hp', hf, ih.mp hf]
      · have hc : containsSub uriSep t = true := by
          rcases h : containsSub uriSep t with _ | _
          · exact absurd (ih.mpr h) (by simp [hf])
          · rfl
        simp [findSep, containsSub_eq, hp', hf, hc]

/-- The split is independent of the fuel once the fuel covers the length. -/
theorem splitOnUriGo_congr : ∀ (f1 : ℕ) (s : Str) (f2 : ℕ), s.length ≤ f1 → s.length ≤ f2 →
    splitOnUriGo f1 s = splitOnUriGo f2 s := by
  intro f1
  induction f1 with
  | zero =>
    intro s f2 h1 _
    have hs : s = [] := List.eq_nil_of_length_eq_zero (Nat.le_zero.mp h1)
    subst hs
    cases f2 <;> simp [splitOnUriGo, findSep]
  | succ f1 ih =>
    intro s f2 h1 h2
    cases f2 with
    | zero =>
      have hs : s = [] := List.eq_nil_of_length_eq_zero (Nat.le_zero.mp h2)
      subst hs
      simp [splitOnUriGo, findSep]
    | succ f2 =>
      rcases hf : findSep s with _ | pp
      · simp only [splitOnUriGo, hf]
      · have hdec := findSep_decomp s pp hf
        have hlen : pp.2.length + 5 ≤ s.length := by
          rw [hdec]
          simp [uriSep_length]
          omega
        simp only [splitOnUriGo, hf]
        rw [ih pp.2 f2 (by omega) (by omega)]

/-- Unfolding equation for `splitOnUri`. -/
theorem splitOnUri_eq (s : Str) : splitOnUri s =
    match findSep s with
    | none => [s]
    | some pp => pp.1 :: splitOnUri pp.2 := by
  rcases hf : findSep s with _ | pp
  · cases s with
    | nil => simp [splitOnUri, splitOnUriGo, hf]
    | cons c t => simp [splitOnUri, splitOnUriGo, hf]
  · cases s with
    | nil => simp [findSep] at hf
    | cons c t =>
      have hdec := findSep_decomp _ pp hf
      have hlen : pp.2.length + 5 ≤ (c :: t).length := by
        rw [hdec]
        simp [uriSep_length]
        omega
      simp only [splitOnUri, List.length_cons, splitOnUriGo, hf]
      rw [splitOnUriGo_congr t.length pp.2 pp.2.length (by simp at hlen; omega) (le_refl _)]

/-- The split of any string is non-empty. -/
theorem splitOnUri_ne_nil (s : Str) : splitOnUri s ≠ [] := by
  rw [splitOnUri_eq]
  rcases findSep s with _ | pp <;> simp

/-- `joinUri` on a non-singleton head. -/
theorem joinUri_cons (p : Str) (ps : List Str) (h : ps ≠ []) :
    joinUri (p :: ps) = p ++ uriSep ++ joinUri ps := by
  cases ps with
  | nil => exact absurd rfl h
  | cons q qs => rfl

/-- Joining the split parts with the marker recovers the input exactly:
everything outside the marker occurrences is preserved. -/
theorem joinUri_splitOnUri : ∀ (n : ℕ) (s : Str), s.length ≤ n →
    joinUri (splitOnUri s) = s := by
  intro n
  induction n with
  | zero =>
    intro s h1
    have hs : s = [] := List.eq_nil_of_length_eq_zero (Nat.le_zero.mp h1)
    subst hs
    rfl
  | succ n ih =>
    intro s h1
    rw [splitOnUri_eq]
    rcases hf : findSep s with _ | pp
    · rfl
    · have hdec := findSep_decomp s pp hf
      have hlen : pp.2.length + 5 ≤ s.length := by
        rw [hdec]
        simp [uriSep_length]
        omega
      rw [joinUri_cons _ _ (splitOnUri_ne_nil pp.2), ih pp.2 (by omega), ← hdec]

/-- A string containing the marker splits into at least two parts. -/
theorem splitOnUri_length_two (s : Str) (h : containsSub uriSep s = true) :
    2 ≤ (splitOnUri s).length := by
  rw [splitOnUri_eq]
  rcases hf : findSep s with _ | pp
  · exact absurd ((findSep_none_iff s).mp hf) (by simp [h])
  · have := splitOnUri_ne_nil pp.2
    cases hq : splitOnUri pp.2 with
    | nil => exact absurd hq this
    | cons q qs => simp [hq]

/-- A marker occurrence inside a tail survives a cons. -/
theorem containsSub_cons (c : Char) (t : Str) (h : containsSub uriSep t = true) :
    containsSub uriSep (c :: t) = true := by
  simp [containsSub, h]

/-- A marker occurrence survives prepending arbitrary text. -/
theorem containsSub_append_left (pre t : Str) (h : containsSub uriSep t = true) :
    containsSub uriSep (pre ++ t) = true := by
  induction pre with
  | nil => simpa using h
  | cons c p ih => exact containsSub_cons c _ ih

/-- A marker occurrence survives appending arbitrary text. -/
theorem containsSub_append_right (a b : Str) (h : containsSub uriSep a = true) :
    containsSub uriSep (a ++ b) = true := by
  induction a with
  | nil =>
    have h0 : containsSub uriSep ([] : Str) = false := by decide
    rw [h0] at h
    simp at h
  | cons c t ih =>
    rcases hp : uriSep.isPrefixOf (c :: t) with _ | _
    · have h1 : containsSub uriSep t = true := by
        rw [containsSub_eq, hp] at h
        simpa using h
      have h2 := ih h1
      simp only [List.cons_append]
      exact containsSub_cons c _ h2
    · obtain ⟨r, hr⟩ := (isPrefixOf_exists uriSep (c :: t)).mp hp
      have hpre : uriSep.isPrefixOf (c :: (t ++ b)) = true :=
        (isPrefixOf_exists _ _).mpr ⟨r ++ b, by
          have := congrArg (fun l => l ++ b) hr
          simpa using this⟩
      simp only [List.cons_append, containsSub_eq, hpre, Bool.true_or]

/-- The trimmed string sits inside the original. -/
theorem trimGo_infix (s : Str) : ∃ pre suf, s = pre ++ trimGo s ++ suf := by
  refine ⟨s.takeWhile isGoSpace, ((s.dropWhile isGoSpace).reverse.takeWhile isGoSpace).reverse, ?_⟩
  have h1 : s = s.takeWhile isGoSpace ++ s.dropWhile isGoSpace :=
    (List.takeWhile_append_dropWhile _ _).symm
  have h2 : s.dropWhile isGoSpace =
      trimGo s ++ ((s.dropWhile isGoSpace).reverse.takeWhile isGoSpace).reverse := by
    have h3 : (s.dropWhile isGoSpace).reverse =
        (s.dropWhile isGoSpace).reverse.takeWhile isGoSpace ++
        (s.dropWhile isGoSpace).reverse.dropWhile isGoSpace :=
      (List.takeWhile_append_dropWhile _ _).symm
    have h4 := congrArg List.reverse h3
    simp only [List.reverse_reverse, List.reverse_append] at h4
    simpa [trimGo] using h4
  calc s = s.takeWhile isGoSpace ++ s.dropWhile isGoSpace := h1
    _ = s.takeWhile isGoSpace ++ (trimGo s ++ _) := by rw [← h2]
    _ = _ := by simp [List.append_assoc]

/-- A marker occurrence in the trimmed line is an occurrence in the line. -/
theorem containsSub_of_trim (s : Str) (h : containsSub uriSep (trimGo s) = true) :
    containsSub uriSep s = true := by
  obtain ⟨pre, suf, hs⟩ := trimGo_infix s
  rw [hs]
  rw [List.append_assoc]
  exact containsSub_append_left pre _ (containsSub_append_right _ suf h)

/-- Splitting the first quote off a quote-free prefix. -/
theorem takeWhile_quote (uri rest : Str) (h : '"' ∉ uri) :
    (uri ++ '"' :: rest).takeWhile (fun c => c != '"') = uri ∧
    (uri ++ '"' :: rest).dropWhile (fun c => c != '"') = '"' :: rest := by
  induction uri with
  | nil => simp [List.takeWhile, List.dropWhile]
  | cons c u ih =>
    have hc : c ≠ '"' := fun he => h (by simp [he])
    have hu : '"' ∉ u := fun he => h (List.mem_cons_of_mem _ he)
    have hcb : (c != '"') = true := by simp [hc]
    obtain ⟨h1, h2⟩ := ih hu
    refine ⟨?_, ?_⟩
    · simp only [List.cons_append, List.takeWhile, hcb]
      simp [h1]
    · simp only [List.cons_append, List.dropWhile, hcb]
      simp [h2]

/-- C9: a tag line without the `URI="` marker passes through unchanged; the
split parts tile the line exactly (so all text outside the quoted values is
emitted verbatim); a line whose trimmed form carries the marker is rebuilt
from its first part and the processed remaining parts; a part with a
closing quote is rewritten into the proxied absolute link with the text
after the quote kept verbatim; and a part without a closing quote is
reproduced exactly as it was read. -/
theorem tagLine_uri_rewrite (esc : Str → Str) (base : GoURL) (origin bp : Str)
    (line : Str) :
    (containsSub uriSep line = false →
      tagLineOut esc base origin bp line = line) ∧
    joinUri (splitOnUri line) = line ∧
    (∀ p0 ps, splitOnUri line = p0 :: ps → containsSub uriSep (trimGo line) = true →
      tagLineOut esc base origin bp line =
        p0 ++ (ps.map (processUriPart esc base origin bp)).flatten) ∧
    (∀ uri rest, '"' ∉ uri →
      processUriPart esc base origin bp (uri ++ '"' :: rest) =
        uriSep ++ origin ++ ("/?url=".toList) ++ esc (ResolveURL uri base bp) ++
          ("\"".toList) ++ rest) ∧
    (∀ p, '"' ∉ p → processUriPart esc base origin bp p = uriSep ++ p) := by
  refine ⟨?_, ?_, ?_, ?_, ?_⟩
  · intro h
    have ht : containsSub uriSep (trimGo line) = false := by
      rcases hc : containsSub uriSep (trimGo line) with _ | _
      · rfl
      · exact absurd (containsSub_of_trim line hc) (by simp [h])
    simp [tagLineOut, ht]
  · exact joinUri_splitOnUri line.length line (le_refl _)
  · intro p0 ps hsplit htrim
    have hline := containsSub_of_trim line htrim
    have hlen := splitOnUri_length_two line hline
    rw [hsplit] at hlen
    have hnot : ¬ (splitOnUri line).length < 2 := by rw [hsplit]; omega
    simp only [tagLineOut, htrim, if_true, rewriteTagURIs]
    rw [if_neg hnot, hsplit]
    simp
  · intro uri rest h
    obtain ⟨h1, h2⟩ := takeWhile_quote uri rest h
    have hin : (uri ++ '"' :: rest).contains '"' = true := by
      simp [List.contains]
    simp only [processUriPart, hin, if_true, h1, h2]
    simp
  · intro p h
    have hc : p.contains '"' = false := by
      rcases hx : p.contains '"' with _ | _
      · rfl
      · exact absurd (by simpa using hx) h
    simp only [processUriPart, hc]
    simp

/-- C9 at the spec's example: in the `#EXT-X-KEY` tag only the quoted URI is
rewritten into the proxied absolute link; the surrounding tag text is
preserved verbatim. -/
theorem tagLine_uri_rewrite_witness :
    tagLineOut (fun s => s) baseW ("http://p".toList) ("/videos/show/".toList)
      ("#EXT-X-KEY:METHOD=AES-128,URI=\"key.bin\"".toList) =
    ("#EXT-X-KEY:METHOD=AES-128,URI=\"http://p/?url=http://origin.example/videos/show/key.bin\"".toList) := by
  have h3 := (tagLine_uri_rewrite (fun s => s) baseW ("http://p".toList)
    ("/videos/show/".toList) ("#EXT-X-KEY:METHOD=AES-128,URI=\"key.bin\"".toList)).2.2.1
    ("#EXT-X-KEY:METHOD=AES-128,".toList) [("key.bin\"".toList)]
    (by decide) (by decide)
  have h4 := (tagLine_uri_rewrite (fun s => s) baseW ("http://p".toList)
    ("/videos/show/".toList) ("#EXT-X-KEY:METHOD=AES-128,URI=\"key.bin\"".toList)).2.2.2.1
    ("key.bin".toList) [] (by decide)
  rw [h3]
  have he : ("key.bin\"".toList) = ("key.bin".toList) ++ '"' :: [] := by decide
  simp only [List.map, List.flatten]
  rw [he, h4]
  decide

end Donggua
